import Mathlib

/-!
Shallow embedding of `scripts/build_wordlists.py`.

The script reads WordNet synsets, collects lemma names with underscores
replaced by spaces into a Python `set`, filters/lowercases/deduplicates them
with `unique_lower`, and writes the resulting adjective and noun lists to
`public/names/adjectives.txt` and `public/names/nouns.txt` joined by newlines.

Strings are modelled as Lean `String` (a list of characters), Python
`str.lower` as a character-wise `Char.toLower` (they agree on the ASCII
range, which is all the filter can accept), and the Python `set` of
candidates as an enumeration: an arbitrary duplicate-free list with the same
members, since CPython's set iteration order is unspecified.
-/

/-- Is `c` one of the characters `a`..`z`? (The character class `[a-z]`;
97 and 122 are the code points of `a` and `z`.) -/
def isLowerAlpha (c : Char) : Bool :=
  decide (97 ≤ c.toNat) && decide (c.toNat ≤ 122)

/-- Python `w.lower()`, modelled character-wise.  `Char.toLower` agrees with
Python's lowercasing on the ASCII range. -/
def strLower (s : String) : String :=
  ⟨s.data.map Char.toLower⟩

/-- `ALNUM = re.compile(r"^[a-z]+$")`, as the test `ALNUM.match(s) is not None`.
In Python (without `re.MULTILINE`) `$` matches at the end of the string *or*
just before a newline at the end of the string, so the match succeeds iff `s`
is one or more lowercase letters, optionally followed by a single trailing
newline. -/
def alnumMatch (s : String) : Bool :=
  (!s.data.isEmpty && s.data.all isLowerAlpha) ||
    (s.data.getLastD 'x' == '\n' && !s.data.dropLast.isEmpty
      && s.data.dropLast.all isLowerAlpha)

/-- The acceptance test of `unique_lower` applied to the already-lowercased
word `w`: `ALNUM.match(w) and 2 <= len(w) <= 12`. -/
def okWord (w : String) : Bool :=
  alnumMatch w && decide (2 ≤ w.length) && decide (w.length ≤ 12)

/-- The loop of `unique_lower`, with the `seen` set and the `out` list made
explicit: `seen` is the accumulator, the returned list is what the loop
appends to `out`. -/
def uniqueLowerAux (seen : List String) : List String → List String
  | [] => []
  | w :: ws =>
    let w' := strLower w
    if okWord w' && !seen.contains w' then
      w' :: uniqueLowerAux (w' :: seen) ws
    else
      uniqueLowerAux seen ws

/-- `unique_lower(words)` from the script: lowercase each word, keep it iff it
matches `^[a-z]+$`, has length between 2 and 12, and was not seen before;
output in first-seen order. -/
def unique_lower (words : List String) : List String :=
  uniqueLowerAux [] words

/-- `lemma.replace("_", " ")`: the single-character replacement performed on
every lemma name before it is added to the candidate set. -/
def substUnderscore (s : String) : String :=
  ⟨s.data.map (fun c => if c == '_' then ' ' else c)⟩

/-- The multiset of strings added to the candidate set by `collect_nouns`:
every lemma name of every noun synset, with underscores replaced by spaces.
A synset is modelled by its list of lemma names. -/
def nounCandidates (synsets : List (List String)) : List String :=
  synsets.flatten.map substUnderscore

/-- The multiset of strings added to the candidate set by
`collect_adjectives`: every lemma name of every `ADJ` synset and of every
`ADJ_SAT` (satellite) synset, with underscores replaced by spaces; both
categories go into the one set `adjs`. -/
def adjCandidates (adjSynsets satSynsets : List (List String)) : List String :=
  (adjSynsets ++ satSynsets).flatten.map substUnderscore

/-- `order` enumerates the Python set built from the elements of `elems`:
it lists each member exactly once, in some unspecified order. -/
def IsSetEnum (elems order : List String) : Prop :=
  order.Nodup ∧ ∀ w, w ∈ order ↔ w ∈ elems

/-- `collect_nouns()`, given an enumeration `order` of its candidate set:
`return unique_lower(nouns)`. -/
def collect_nouns (order : List String) : List String :=
  unique_lower order

/-- `collect_adjectives()`, given an enumeration `order` of its (merged)
candidate set: `return unique_lower(adjs)`. -/
def collect_adjectives (order : List String) : List String :=
  unique_lower order

/-- `"\n".join(ws)`: the exact file content written by
`write_text("\n".join(...))`. -/
def joinNL : List String → String
  | [] => ""
  | [w] => w
  | w :: ws => w ++ "\n" ++ joinNL ws

/-- Split a character list into its newline-separated lines
(`acc` holds the reversed current line). -/
def splitNLAux (acc : List Char) : List Char → List (List Char)
  | [] => [acc.reverse]
  | c :: cs => if c == '\n' then acc.reverse :: splitNLAux [] cs
               else splitNLAux (c :: acc) cs

/-- The newline-separated lines of a string. -/
def splitNL (s : String) : List (List Char) :=
  splitNLAux [] s.data

/-- Which output files hold which content after a run of the `__main__`
block, and whether the run completed. -/
structure MainResult where
  adjFile : Option String
  nounFile : Option String
  completed : Bool
  deriving DecidableEq, Repr

/-- The `__main__` block with each fallible step exposed: `adjCollect` and
`nounCollect` are the results of `collect_adjectives()` and
`collect_nouns()` (`none` = the call raised), `adjWriteOk` / `nounWriteOk`
say whether the two `write_text` calls succeed.  The sequencing is that of
lines 46-58 of the script: collect adjectives, collect nouns, then write
`adjectives.txt`, then write `nouns.txt`; an exception aborts the run at
that point. -/
def runMain (adjCollect nounCollect : Option (List String))
    (adjWriteOk nounWriteOk : Bool) : MainResult :=
  match adjCollect with
  | none => ⟨none, none, false⟩
  | some adjs =>
    match nounCollect with
    | none => ⟨none, none, false⟩
    | some nouns =>
      if adjWriteOk then
        if nounWriteOk then
          ⟨some (joinNL adjs), some (joinNL nouns), true⟩
        else
          ⟨some (joinNL adjs), none, false⟩
      else
        ⟨none, none, false⟩

/-! ### Basic lemmas about the loop of `unique_lower` -/

/-- A word is emitted by the loop iff it is the lowercasing of some input
word, passes the filter, and is not in the initial `seen` set. -/
theorem mem_uniqueLowerAux {seen ws : List String} {w : String} :
    w ∈ uniqueLowerAux seen ws ↔
      okWord w = true ∧ w ∉ seen ∧ ∃ x ∈ ws, strLower x = w := by
  induction ws generalizing seen with
  | nil => simp [uniqueLowerAux]
  | cons x ws ih =>
    simp only [uniqueLowerAux]
    by_cases hok : okWord (strLower x) = true
    · by_cases hseen : strLower x ∈ seen
      · rw [if_neg (by simp [hseen]), ih]
        constructor
        · rintro ⟨h1, h2, y, hy, rfl⟩
          exact ⟨h1, h2, y, List.mem_cons_of_mem _ hy, rfl⟩
        · rintro ⟨h1, h2, y, hy, rfl⟩
          rcases List.mem_cons.mp hy with rfl | hy'
          · exact absurd hseen h2
          · exact ⟨h1, h2, y, hy', rfl⟩
      · rw [if_pos (by simp [hok, hseen])]
        simp only [List.mem_cons, ih]
        constructor
        · rintro (rfl | ⟨h1, h2, y, hy, rfl⟩)
          · exact ⟨hok, hseen, x, Or.inl rfl, rfl⟩
          · exact ⟨h1, fun hc => h2 (Or.inr hc), y, Or.inr hy, rfl⟩
        · rintro ⟨h1, h2, y, hy, rfl⟩
          rcases hy with rfl | hy'
          · exact Or.inl rfl
          · by_cases hx : strLower y = strLower x
            · exact Or.inl hx
            · exact Or.inr ⟨h1, fun hc => hc.elim hx h2, y, hy', rfl⟩
    · rw [if_neg (by simp [hok]), ih]
      constructor
      · rintro ⟨h1, h2, y, hy, rfl⟩
        exact ⟨h1, h2, y, List.mem_cons_of_mem _ hy, rfl⟩
      · rintro ⟨h1, h2, y, hy, rfl⟩
        rcases List.mem_cons.mp hy with rfl | hy'
        · exact absurd h1 hok
        · exact ⟨h1, h2, y, hy', rfl⟩

/-- Membership in `unique_lower`: exactly the lowercasings of input words
that pass the filter. -/
theorem mem_unique_lower {ws : List String} {w : String} :
    w ∈ unique_lower ws ↔ okWord w = true ∧ ∃ x ∈ ws, strLower x = w := by
  rw [unique_lower, mem_uniqueLowerAux]
  simp

/-- The loop never emits a duplicate. -/
theorem uniqueLowerAux_nodup (seen ws : List String) :
    (uniqueLowerAux seen ws).Nodup := by
  induction ws generalizing seen with
  | nil => simp [uniqueLowerAux]
  | cons x ws ih =>
    simp only [uniqueLowerAux]
    split
    · refine List.nodup_cons.mpr ⟨fun hc => ?_, ih _⟩
      exact (mem_uniqueLowerAux.mp hc).2.1 (.head _)
    · exact ih _

/-! ### Character-level facts -/

/-- `Char.toLower` fixes the characters `a`..`z`. -/
theorem toLower_of_isLowerAlpha {c : Char} (h : isLowerAlpha c = true) :
    Char.toLower c = c := by
  simp only [isLowerAlpha, Bool.and_eq_true, decide_eq_true_eq] at h
  simp only [Char.toLower]
  rw [if_neg (by omega)]

/-- A newline is not in the class `[a-z]`. -/
theorem isLowerAlpha_newline : isLowerAlpha '\n' = false := by decide

/-- A space is not in the class `[a-z]`. -/
theorem isLowerAlpha_space : isLowerAlpha ' ' = false := by decide

/-- `ALNUM.match` succeeds exactly on a nonempty run of lowercase letters,
optionally followed by one trailing newline. -/
theorem alnumMatch_iff {s : String} :
    alnumMatch s = true ↔
      (s.data ≠ [] ∧ ∀ c ∈ s.data, isLowerAlpha c = true) ∨
      (∃ t : List Char, s.data = t ++ ['\n'] ∧ t ≠ [] ∧
        ∀ c ∈ t, isLowerAlpha c = true) := by
  simp only [alnumMatch, Bool.or_eq_true, Bool.and_eq_true, beq_iff_eq,
    Bool.not_eq_true', List.isEmpty_eq_false, List.all_eq_true]
  constructor
  · rintro (⟨h1, h2⟩ | ⟨⟨hlast, hne⟩, hall⟩)
    · exact Or.inl ⟨h1, h2⟩
    · have hsome : s.data.getLast? = some '\n' := by
        rw [List.getLastD_eq_getLast?] at hlast
        cases hq : s.data.getLast? with
        | none => rw [hq] at hlast; exact absurd hlast (by decide)
        | some c => rw [hq] at hlast; simp only [Option.getD_some] at hlast; rw [hlast]
      exact Or.inr ⟨s.data.dropLast,
        (List.dropLast_append_getLast? _ hsome).symm, hne, hall⟩
  · rintro (⟨h1, h2⟩ | ⟨t, ht, h1, h2⟩)
    · exact Or.inl ⟨h1, h2⟩
    · refine Or.inr ⟨⟨?_, ?_⟩, ?_⟩
      · rw [ht, List.getLastD_concat]
      · rw [ht, List.dropLast_concat]
        exact h1
      · rw [ht, List.dropLast_concat]
        exact h2

/-- A string containing a space never passes the `^[a-z]+$` filter. -/
theorem alnumMatch_space_false {s : String} (h : (' ' : Char) ∈ s.data) :
    alnumMatch s = false := by
  by_contra hc
  rw [Bool.not_eq_false] at hc
  rcases alnumMatch_iff.mp hc with ⟨_, hall⟩ | ⟨t, ht, _, hall⟩
  · exact absurd (hall ' ' h) (by decide)
  · rw [ht] at h
    rcases List.mem_append.mp h with h' | h'
    · exact absurd (hall ' ' h') (by decide)
    · simp at h'

/-- A word accepted by the filter is already lowercase: lowercasing it again
changes nothing. -/
theorem strLower_of_okWord {w : String} (h : okWord w = true) : strLower w = w := by
  have halnum : alnumMatch w = true := by
    simp only [okWord, Bool.and_eq_true] at h
    exact h.1.1
  have hfix : ∀ c ∈ w.data, Char.toLower c = c := by
    rcases alnumMatch_iff.mp halnum with ⟨_, hall⟩ | ⟨t, ht, _, hall⟩
    · exact fun c hc => toLower_of_isLowerAlpha (hall c hc)
    · intro c hc
      rw [ht] at hc
      rcases List.mem_append.mp hc with h' | h'
      · exact toLower_of_isLowerAlpha (hall c h')
      · simp at h'
        rw [h']
        decide
  have hmap : w.data.map Char.toLower = w.data := by
    calc w.data.map Char.toLower = w.data.map id :=
          List.map_congr_left (fun c hc => hfix c hc)
      _ = w.data := List.map_id _
  show (⟨w.data.map Char.toLower⟩ : String) = w
  rw [hmap]

/-- On a duplicate-free list of already-accepted, already-lowercase words
disjoint from `seen`, the loop of `unique_lower` is the identity. -/
theorem uniqueLowerAux_fix {ws : List String} (hnd : ws.Nodup)
    (hok : ∀ w ∈ ws, okWord w = true) (hlow : ∀ w ∈ ws, strLower w = w)
    {seen : List String} (hseen : ∀ w ∈ ws, w ∉ seen) :
    uniqueLowerAux seen ws = ws := by
  induction ws generalizing seen with
  | nil => rfl
  | cons x ws ih =>
    have hx : strLower x = x := hlow x (List.mem_cons_self x ws)
    simp only [uniqueLowerAux, hx]
    rw [if_pos (by simp [hok x (List.mem_cons_self x ws),
      hseen x (List.mem_cons_self x ws)])]
    congr 1
    refine ih (List.nodup_cons.mp hnd).2
      (fun w hw => hok w (List.mem_cons_of_mem _ hw))
      (fun w hw => hlow w (List.mem_cons_of_mem _ hw)) (fun w hw hc => ?_)
    rcases List.mem_cons.mp hc with rfl | hc'
    · exact (List.nodup_cons.mp hnd).1 hw
    · exact hseen w (List.mem_cons_of_mem _ hw) hc'

/-! ### The specification-side description of `unique_lower`'s deduplication -/

/-- Specification-side description of the deduplication step, following the
spec's words "first occurrence wins, insertion order preserved in output":
plain first-occurrence-keeping deduplication of a list. -/
def firstDedupAux (seen : List String) : List String → List String
  | [] => []
  | x :: xs =>
    if x ∈ seen then firstDedupAux seen xs
    else x :: firstDedupAux (x :: seen) xs

/-- Specification-side description: deduplicate, keeping the first occurrence
of each element and the order of the survivors. -/
def firstDedup (xs : List String) : List String :=
  firstDedupAux [] xs

/-- The loop of `unique_lower` is first-occurrence deduplication of the
lowercased words that pass the filter. -/
theorem uniqueLowerAux_eq_firstDedupAux (seen ws : List String) :
    uniqueLowerAux seen ws = firstDedupAux seen ((ws.map strLower).filter okWord) := by
  induction ws generalizing seen with
  | nil => rfl
  | cons x ws ih =>
    simp only [uniqueLowerAux, List.map_cons, List.filter_cons]
    by_cases hok : okWord (strLower x) = true
    · rw [if_pos hok]
      simp only [firstDedupAux]
      by_cases hseen : strLower x ∈ seen
      · rw [if_pos hseen, if_neg (by simp [hseen]), ih]
      · rw [if_neg hseen, if_pos (by simp [hok, hseen]), ih]
    · rw [if_neg (by simp [hok]), if_neg hok, ih]

/-- A duplicate-free list whose members are exactly `x` is `[x]`. -/
theorem eq_singleton_of_nodup_mem {l : List String} {x : String}
    (hnd : l.Nodup) (h : ∀ a, a ∈ l ↔ a = x) : l = [x] := by
  cases l with
  | nil => simpa using (h x).mpr rfl
  | cons a t =>
    have ha : a = x := (h a).mp (List.mem_cons_self a t)
    subst ha
    cases t with
    | nil => rfl
    | cons b t2 =>
      have hb : b = a := (h b).mp (List.mem_cons_of_mem _ (List.mem_cons_self b t2))
      subst hb
      exact absurd (List.mem_cons_self b t2) (List.nodup_cons.mp hnd).1

/-! ### Lemmas about the newline join used by the file writes -/

theorem joinNL_cons_cons (w x : String) (ws : List String) :
    joinNL (w :: x :: ws) = w ++ "\n" ++ joinNL (x :: ws) := rfl

theorem joinNL_data_cons_cons (w x : String) (ws : List String) :
    (joinNL (w :: x :: ws)).data = w.data ++ '\n' :: (joinNL (x :: ws)).data := by
  rw [joinNL_cons_cons]
  simp [String.data_append]

/-- Splitting walks over newline-free text by accumulating it. -/
theorem splitNLAux_append_of_no_newline {xs : List Char} (h : '\n' ∉ xs)
    (acc cs : List Char) :
    splitNLAux acc (xs ++ cs) = splitNLAux (xs.reverse ++ acc) cs := by
  induction xs generalizing acc with
  | nil => simp
  | cons c xs ih =>
    have hc : (c == '\n') = false := by
      simp only [beq_eq_false_iff_ne, ne_eq]
      rintro rfl
      exact h (List.mem_cons_self _ _)
    simp only [List.cons_append, splitNLAux, hc, Bool.false_eq_true, if_false]
    show splitNLAux (c :: acc) (xs ++ cs) = splitNLAux ((c :: xs).reverse ++ acc) cs
    rw [ih (fun hm => h (List.mem_cons_of_mem _ hm))]
    simp [List.append_assoc]

/-- No character of an all-lowercase-letters word is a newline. -/
theorem no_newline_of_all_lower {w : String} (h : w.data.all isLowerAlpha = true) :
    '\n' ∉ w.data := fun hc =>
  absurd (List.all_eq_true.mp h _ hc) (by decide)

/-- Joining a nonempty list of nonempty newline-free words: the newline count
is one less than the word count, and splitting on newlines recovers exactly
the words. -/
theorem joinNL_count_split {ws : List String}
    (hws : ∀ w ∈ ws, w.data ≠ [] ∧ w.data.all isLowerAlpha = true)
    (hne : ws ≠ []) :
    (joinNL ws).data.count '\n' = ws.length - 1 ∧
      splitNL (joinNL ws) = ws.map String.data := by
  induction ws with
  | nil => exact absurd rfl hne
  | cons w ws ih =>
    have hnl := no_newline_of_all_lower (hws w (List.mem_cons_self _ _)).2
    cases ws with
    | nil =>
      constructor
      · simpa [joinNL] using List.count_eq_zero.mpr hnl
      · have h1 := splitNLAux_append_of_no_newline hnl [] []
        simp only [List.append_nil] at h1
        rw [splitNL, show (joinNL [w]).data = w.data from rfl, h1]
        simp [splitNLAux]
    | cons x ws2 =>
      have hcw : w.data.count '\n' = 0 := List.count_eq_zero.mpr hnl
      obtain ⟨ihc, ihs⟩ := ih (fun y hy => hws y (List.mem_cons_of_mem _ hy)) (by simp)
      constructor
      · rw [joinNL_data_cons_cons, List.count_append, hcw]
        simp only [List.count_cons, List.length_cons]
        rw [ihc]
        simp
      · rw [splitNL, joinNL_data_cons_cons, splitNLAux_append_of_no_newline hnl]
        simp only [splitNLAux, beq_self_eq_true, if_true, List.append_nil,
          List.reverse_reverse]
        rw [show splitNLAux [] (joinNL (x :: ws2)).data
            = splitNL (joinNL (x :: ws2)) from rfl, ihs]
        simp

/-! ### Claim theorems -/

/-- C1: Filtering correctness — for the synthetic noun corpus with candidate
lemmas "Cat", "cat", "dogs_breath", "a", "supercalifragil", `collect_nouns`
applied to any traversal order of its candidate set yields exactly `["cat"]`:
the case-insensitive duplicate collapses, the underscore lemma, the 1-letter
entry and the 15-letter entry are excluded. -/
theorem filtering_correctness {order : List String}
    (h : IsSetEnum (nounCandidates [["Cat", "cat", "dogs_breath", "a",
      "supercalifragil"]]) order) :
    collect_nouns order = ["cat"] := by
  obtain ⟨hnd, hmem⟩ := h
  have hcand : nounCandidates [["Cat", "cat", "dogs_breath", "a", "supercalifragil"]]
      = ["Cat", "cat", "dogs breath", "a", "supercalifragil"] := by decide
  rw [hcand] at hmem
  have key : ∀ w, w ∈ collect_nouns order ↔ w = "cat" := by
    intro w
    rw [collect_nouns, mem_unique_lower]
    constructor
    · rintro ⟨hok, x, hx, rfl⟩
      rw [hmem x] at hx
      simp only [List.mem_cons, List.not_mem_nil, or_false] at hx
      rcases hx with rfl | rfl | rfl | rfl | rfl
      · decide
      · decide
      · exact absurd hok (by decide)
      · exact absurd hok (by decide)
      · exact absurd hok (by decide)
    · rintro rfl
      exact ⟨by decide, "Cat", (hmem "Cat").mpr (by decide), by decide⟩
  exact eq_singleton_of_nodup_mem (uniqueLowerAux_nodup [] order) key

/-- C1 witness: the concrete enumeration listing the candidate set in its own
order. -/
theorem filtering_correctness_witness :
    collect_nouns ["Cat", "cat", "dogs breath", "a", "supercalifragil"] = ["cat"] :=
  filtering_correctness
    ⟨by decide, fun w => by
      rw [show nounCandidates [["Cat", "cat", "dogs_breath", "a", "supercalifragil"]]
        = ["Cat", "cat", "dogs breath", "a", "supercalifragil"] from by decide]⟩

/-- C2 counterexample: two traversal orders of the same candidate set (a
permutation of each other) produce different file contents, so byte-identical
output does not hold "regardless of the traversal order of the intermediate
candidate sets". -/
theorem byte_identity_counterexample :
    (["ab", "cd"] : List String).Perm ["cd", "ab"] ∧
      joinNL (unique_lower ["ab", "cd"]) ≠ joinNL (unique_lower ["cd", "ab"]) :=
  ⟨by decide, by decide⟩

/-- C2 (amended): for the same corpus contents the pipeline is a pure
function of the candidate-set traversal order, and any two traversal orders
of the same candidate set give wordlists with exactly the same members; byte
identity of the files holds only when the traversal orders coincide, since
the member order can differ between traversals. -/
theorem byte_identity_amended {ws1 ws2 : List String} (h : ws1.Perm ws2)
    (w : String) : w ∈ unique_lower ws1 ↔ w ∈ unique_lower ws2 := by
  rw [mem_unique_lower, mem_unique_lower]
  constructor
  · rintro ⟨h1, x, hx, rfl⟩
    exact ⟨h1, x, h.mem_iff.mp hx, rfl⟩
  · rintro ⟨h1, x, hx, rfl⟩
    exact ⟨h1, x, h.mem_iff.mpr hx, rfl⟩

/-- C2 witness: the amended membership agreement at a concrete permutation. -/
theorem byte_identity_amended_witness :
    "ab" ∈ unique_lower ["ab", "cd"] ↔ "ab" ∈ unique_lower ["cd", "ab"] :=
  byte_identity_amended (by decide) "ab"

/-- C3 counterexample: when noun collection fails after adjective collection
succeeded, the adjectives file has NOT been written (the claim asserts the
adjectives file may already have been written, because it takes the
adjectives write to precede noun collection). -/
theorem write_sequencing_counterexample :
    (runMain (some ["aa"]) none true true).adjFile = none ∧
      (runMain (some ["aa"]) none true true).nounFile = none :=
  ⟨rfl, rfl⟩

/-- C3 (amended): both collections complete before either file is written, so
a failure of either collection (or of the adjectives write) leaves neither
file written; the only partial-success mode is a failure of the nouns write
after the adjectives write succeeded, which leaves exactly the adjectives
file written; a fully successful run writes both files. -/
theorem write_sequencing_amended :
    (∀ a w1 w2, (runMain a none w1 w2).adjFile = none
        ∧ (runMain a none w1 w2).nounFile = none) ∧
    (∀ n w1 w2, (runMain none n w1 w2).adjFile = none
        ∧ (runMain none n w1 w2).nounFile = none) ∧
    (∀ adjs nouns w2, (runMain (some adjs) (some nouns) false w2).adjFile = none
        ∧ (runMain (some adjs) (some nouns) false w2).nounFile = none) ∧
    (∀ adjs nouns, (runMain (some adjs) (some nouns) true false).adjFile
          = some (joinNL adjs)
        ∧ (runMain (some adjs) (some nouns) true false).nounFile = none
        ∧ (runMain (some adjs) (some nouns) true false).completed = false) ∧
    (∀ adjs nouns, (runMain (some adjs) (some nouns) true true).adjFile
          = some (joinNL adjs)
        ∧ (runMain (some adjs) (some nouns) true true).nounFile
          = some (joinNL nouns)
        ∧ (runMain (some adjs) (some nouns) true true).completed = true) := by
  refine ⟨fun a w1 w2 => ?_, fun n w1 w2 => ⟨rfl, rfl⟩,
    fun adjs nouns w2 => ⟨rfl, rfl⟩,
    fun adjs nouns => ⟨rfl, rfl, rfl⟩, fun adjs nouns => ⟨rfl, rfl, rfl⟩⟩
  cases a <;> exact ⟨rfl, rfl⟩

/-- C4 counterexample: `unique_lower` can emit a word containing a newline —
"abc\n" passes Python's `^[a-z]+$` because `$` also matches just before a
trailing newline — so it is not true that every output word consists of
lowercase letters only. -/
theorem char_class_counterexample :
    unique_lower ["abc\n"] = ["abc\n"]
      ∧ ("abc\n" : String).data.all isLowerAlpha = false :=
  ⟨by decide, by decide⟩

/-- C4 (amended): every word output by `unique_lower` has length between 2
and 12 and consists of lowercase Latin letters only, except possibly for one
single trailing newline character (an artifact of Python `$` matching just
before a trailing newline); in particular no space ever occurs. -/
theorem char_class_invariant {ws : List String} {w : String}
    (h : w ∈ unique_lower ws) :
    2 ≤ w.length ∧ w.length ≤ 12 ∧
      (w.data.all isLowerAlpha = true ∨
        (w.data.getLast? = some '\n' ∧ w.data.dropLast ≠ []
          ∧ w.data.dropLast.all isLowerAlpha = true)) := by
  have hok := (mem_unique_lower.mp h).1
  simp only [okWord, Bool.and_eq_true, decide_eq_true_eq] at hok
  obtain ⟨⟨halnum, h2⟩, h12⟩ := hok
  refine ⟨h2, h12, ?_⟩
  rcases alnumMatch_iff.mp halnum with ⟨hne, hall⟩ | ⟨t, ht, hne, hall⟩
  · exact Or.inl (List.all_eq_true.mpr hall)
  · refine Or.inr ⟨?_, ?_, ?_⟩
    · rw [ht, List.getLast?_concat]
    · rw [ht, List.dropLast_concat]
      exact hne
    · rw [ht, List.dropLast_concat]
      exact List.all_eq_true.mpr hall

/-- C4 witness: the amended invariant at the output word "cat". -/
theorem char_class_invariant_witness :
    2 ≤ ("cat" : String).length ∧ ("cat" : String).length ≤ 12 ∧
      (("cat" : String).data.all isLowerAlpha = true ∨
        (("cat" : String).data.getLast? = some '\n'
          ∧ ("cat" : String).data.dropLast ≠ []
          ∧ ("cat" : String).data.dropLast.all isLowerAlpha = true)) :=
  @char_class_invariant ["cat"] "cat" (by decide)

/-- C5: Uniqueness — the output of `unique_lower` never contains an element
twice, so no word appears twice within either output file. -/
theorem uniqueness_nodup (ws : List String) : (unique_lower ws).Nodup :=
  uniqueLowerAux_nodup [] ws

/-- C6: Order preservation with first occurrence winning — `unique_lower` is
first-occurrence-keeping deduplication of the lowercased words passing the
filter, in input order; and on ["zebra", "apple", "zebra"] it produces
["zebra", "apple"]. -/
theorem order_preservation :
    (∀ ws : List String,
        unique_lower ws = firstDedup ((ws.map strLower).filter okWord)) ∧
      unique_lower ["zebra", "apple", "zebra"] = ["zebra", "apple"] :=
  ⟨fun ws => uniqueLowerAux_eq_firstDedupAux [] ws, by decide⟩

/-- C7: Multi-word exclusion — the normalized form of any lemma containing an
underscore or a space is never in the output of `unique_lower`, whatever the
input list: the underscore-to-space substitution leaves a space in the
string, and a string containing a space fails the letters-only pattern. -/
theorem multiword_exclusion {lem : String} {ws : List String}
    (h : ('_' : Char) ∈ lem.data ∨ (' ' : Char) ∈ lem.data) :
    strLower (substUnderscore lem) ∉ unique_lower ws := by
  intro hc
  have hok := (mem_unique_lower.mp hc).1
  have hsp0 : (' ' : Char) ∈ (substUnderscore lem).data := by
    show (' ' : Char) ∈ lem.data.map (fun c => if c == '_' then ' ' else c)
    rcases h with h | h
    · exact List.mem_map.mpr ⟨'_', h, by decide⟩
    · exact List.mem_map.mpr ⟨' ', h, by decide⟩
  have hsp : (' ' : Char) ∈ (strLower (substUnderscore lem)).data := by
    show (' ' : Char) ∈ (substUnderscore lem).data.map Char.toLower
    exact List.mem_map.mpr ⟨' ', hsp0, by decide⟩
  have hfail := alnumMatch_space_false hsp
  simp [okWord, hfail] at hok

/-- C7 witness: the underscore lemma "dogs_breath" at a concrete input
list. -/
theorem multiword_exclusion_witness :
    strLower (substUnderscore "dogs_breath") ∉ unique_lower ["dogs breath"] :=
  multiword_exclusion (Or.inl (by decide))

/-- C8: Merge correctness — a lemma that passes the normalization filter and
occurs under the satellite-adjective category (regardless of the plain
adjective category) reaches the final adjective list, since `ADJ` and
`ADJ_SAT` lemmas are merged into one candidate set before filtering. -/
theorem merge_correctness {adjS satS : List (List String)}
    {order : List String} {lem : String}
    (henum : IsSetEnum (adjCandidates adjS satS) order)
    (hsat : ∃ syn ∈ satS, lem ∈ syn)
    (hall : lem.data.all isLowerAlpha = true)
    (hlen2 : 2 ≤ lem.length) (hlen12 : lem.length ≤ 12) :
    lem ∈ collect_adjectives order := by
  obtain ⟨syn, hsyn, hlem⟩ := hsat
  have hsub : substUnderscore lem = lem := by
    show (⟨lem.data.map (fun c => if c == '_' then ' ' else c)⟩ : String) = lem
    have hmap : lem.data.map (fun c => if c == '_' then ' ' else c) = lem.data := by
      calc lem.data.map (fun c => if c == '_' then ' ' else c)
          = lem.data.map id := List.map_congr_left (fun c hc => by
            have hlc := List.all_eq_true.mp hall c hc
            have hne : (c == '_') = false := by
              rw [beq_eq_false_iff_ne]
              rintro rfl
              exact absurd hlc (by decide)
            simp [hne])
        _ = lem.data := List.map_id _
    rw [hmap]
  have hlow : strLower lem = lem := by
    show (⟨lem.data.map Char.toLower⟩ : String) = lem
    have hmap : lem.data.map Char.toLower = lem.data := by
      calc lem.data.map Char.toLower
          = lem.data.map id := List.map_congr_left
            (fun c hc => toLower_of_isLowerAlpha (List.all_eq_true.mp hall c hc))
        _ = lem.data := List.map_id _
    rw [hmap]
  have hok : okWord lem = true := by
    have hne : lem.data ≠ [] := by
      intro hnil
      have hz : lem.length = 0 := by
        rw [show lem.length = lem.data.length from rfl, hnil]
        rfl
      omega
    simp only [okWord, Bool.and_eq_true, decide_eq_true_eq]
    exact ⟨⟨alnumMatch_iff.mpr (Or.inl ⟨hne, List.all_eq_true.mp hall⟩), hlen2⟩, hlen12⟩
  have hmemcand : lem ∈ adjCandidates adjS satS := by
    rw [adjCandidates]
    refine List.mem_map.mpr ⟨lem, ?_, hsub⟩
    exact List.mem_flatten.mpr ⟨syn, List.mem_append.mpr (Or.inr hsyn), hlem⟩
  exact mem_unique_lower.mpr ⟨hok, lem, (henum.2 lem).mpr hmemcand, hlow⟩

/-- C8 witness: "happy" occurring only under the satellite category. -/
theorem merge_correctness_witness :
    "happy" ∈ collect_adjectives ["happy"] :=
  @merge_correctness [] [["happy"]] ["happy"] "happy"
    ⟨by decide, fun w => by
      rw [show adjCandidates [] [["happy"]] = ["happy"] from by decide]⟩
    ⟨["happy"], by decide, by decide⟩ (by decide) (by decide) (by decide)

/-- C9: `unique_lower` is a fixpoint on its own output: applying the
normalize-and-deduplicate step to an already-normalized list returns it
unchanged. -/
theorem unique_lower_idempotent (ws : List String) :
    unique_lower (unique_lower ws) = unique_lower ws :=
  uniqueLowerAux_fix (uniqueLowerAux_nodup [] ws)
    (fun w hw => (mem_unique_lower.mp hw).1)
    (fun w hw => strLower_of_okWord (mem_unique_lower.mp hw).1)
    (fun w _ hc => absurd hc (List.not_mem_nil w))

/-- C10: Serialization format — the persisted content `"\n".join(ws)` of a
wordlist of normalized (nonempty, letters-only) words is the words joined by
single newline characters: the empty list yields the empty (zero-byte)
content, and a non-empty list yields exactly `ws.length - 1` newline
characters and splits on newlines into exactly the `ws.length` original
words — in particular there is no trailing newline, which would have produced
an extra empty line. -/
theorem serialization_format {ws : List String}
    (hws : ∀ w ∈ ws, w.data ≠ [] ∧ w.data.all isLowerAlpha = true) :
    (ws = [] → joinNL ws = "") ∧
      (ws ≠ [] → (joinNL ws).data.count '\n' = ws.length - 1
        ∧ splitNL (joinNL ws) = ws.map String.data
        ∧ (splitNL (joinNL ws)).length = ws.length) := by
  refine ⟨fun h => by rw [h]; rfl, fun hne => ?_⟩
  obtain ⟨h1, h2⟩ := joinNL_count_split hws hne
  exact ⟨h1, h2, by rw [h2, List.length_map]⟩

/-- C10 witness: the serialization facts at the concrete wordlist
["ab", "cd"]. -/
theorem serialization_format_witness :
    (joinNL ["ab", "cd"]).data.count '\n'
        = (["ab", "cd"] : List String).length - 1
      ∧ splitNL (joinNL ["ab", "cd"])
        = (["ab", "cd"] : List String).map String.data
      ∧ (splitNL (joinNL ["ab", "cd"])).length
        = (["ab", "cd"] : List String).length :=
  ((@serialization_format ["ab", "cd"] (by decide)).2 (by decide))
